import Mathlib

/-!
Shallow embedding of the sidecar incremental document model and
structural chunking/retrieval engine
(src/sidecar/src/inline_completion/document/content.rs and
src/sidecar/src/chunking/types.rs).

Conventions of the embedding:
* Rust `String` values are modelled as lists of Unicode code points
  (`List Char`), matching the source, which converts lines to
  `Vec<char>` before any column-indexed manipulation.
* `usize` arithmetic is modelled as `Nat`; the source never relies on
  overflow (all quantities are small line/column counts), and every
  subtraction in the source is guarded, so `Nat` truncated subtraction
  matches it where it is used.
* `f32` scores are embedded as exact rationals (`ℚ`): the similarity
  pipeline only divides, compares and sorts scores, and these operations
  are modelled by the corresponding exact rational ones.  Lean's
  `0 / 0 = 0` convention realises the both-empty-sets decision stated in
  the specification.
* Fallible operations (the source's `unwrap` on map lookups) are
  modelled with `Option`: `none` corresponds to a panic.
* `HashSet<String>` is modelled as `Finset Str`, `HashMap<usize, String>`
  (with insertion-order overwrite) as an explicit lookup function.
-/

/-- Rust `String`, viewed as its sequence of Unicode code points. -/
abbrev Str := List Char

/-- Modelled from the spec: `Position` primitive (§3) — the source file
`chunking/text_document.rs` is not part of the corpus.  A position is a
line, a code-point column within the line, and a byte offset. -/
structure Position where
  line : Nat
  column : Nat
  byte_offset : Nat
  deriving DecidableEq, Repr

/-- Modelled from the spec: `Range` primitive (§3) — a pair of
positions. -/
structure Range where
  start_position : Position
  end_position : Position
  deriving DecidableEq, Repr

namespace Range

def start_line (r : Range) : Nat := r.start_position.line

def start_column (r : Range) : Nat := r.start_position.column

def end_line (r : Range) : Nat := r.end_position.line

def end_column (r : Range) : Nat := r.end_position.column

def start_byte (r : Range) : Nat := r.start_position.byte_offset

def end_byte (r : Range) : Nat := r.end_position.byte_offset

def set_start_position (r : Range) (p : Position) : Range :=
  ⟨p, r.end_position⟩

def set_end_position (r : Range) (p : Position) : Range :=
  ⟨r.start_position, p⟩

/-- Modelled from the spec: the containment predicate used by the
folding algorithms (§4.3) and by `add_identifier_nodes` — the argument
range lies fully inside the receiver, inclusively, measured in byte
offsets (the same measure the fold's sort uses).  In the source this is
`Range::is_contained`/`Range::contains` from the missing
`text_document.rs`; §4.3 specifies that the scan drops a record when its
range is fully contained in the most recently kept record. -/
def contains_range (outer inner : Range) : Prop :=
  outer.start_byte ≤ inner.start_byte ∧ inner.end_byte ≤ outer.end_byte

instance : DecidableRel contains_range := by
  intro a b
  unfold contains_range
  infer_instance

end Range

/-- Modelled from the spec: `split_on_lines_editor_compatiable`
(`inline_completion/helpers.rs`, not part of the corpus).  Splitting is
newline-delimited and keeps every field, so an empty string yields
exactly one empty line and a string with `n` newlines yields `n + 1`
lines (§4.2, §8 round-trip law).  Generalised over the separator so the
same splitter models Rust's `str::split('_')` in the tokenizer. -/
def splitOnChar (sep : Char) : Str → List Str
  | [] => [[]]
  | c :: rest =>
    match splitOnChar sep rest with
    | [] => [[]]
    | l :: ls => if c = sep then [] :: l :: ls else (c :: l) :: ls

/-- Modelled from the spec: the editor-compatible line splitter is the
newline instance of `splitOnChar`. -/
def split_on_lines_editor_compatiable (content : Str) : List Str :=
  splitOnChar '\n' content

/-- Joining with a separator, the inverse of `splitOnChar`; models
Rust's `join` on a vector of strings. -/
def joinWithChar (sep : Char) : List Str → Str
  | [] => []
  | [l] => l
  | l :: ls => l ++ sep :: joinWithChar sep ls

theorem splitOnChar_ne_nil (sep : Char) (s : Str) : splitOnChar sep s ≠ [] := by
  cases s with
  | nil => simp [splitOnChar]
  | cons c rest =>
    unfold splitOnChar
    cases h : splitOnChar sep rest with
    | nil => simp
    | cons l ls =>
      by_cases hc : c = sep <;> simp [hc]

theorem joinWithChar_splitOnChar (sep : Char) (s : Str) :
    joinWithChar sep (splitOnChar sep s) = s := by
  induction s with
  | nil => rfl
  | cons c rest ih =>
    unfold splitOnChar
    cases h : splitOnChar sep rest with
    | nil => exact absurd h (splitOnChar_ne_nil sep rest)
    | cons l ls =>
      rw [h] at ih
      by_cases hc : c = sep
      · subst hc
        simp only [if_pos rfl]
        cases ls with
        | nil => simpa [joinWithChar] using ih
        | cons l2 ls2 => simpa [joinWithChar] using ih
      · simp only [if_neg hc]
        cases ls with
        | nil => simpa [joinWithChar] using ih
        | cons l2 ls2 => simpa [joinWithChar] using ih

/-- `DocumentLineStatus` from content.rs: whether a line has been
rewritten by an insertion. -/
inductive DocumentLineStatus where
  | Edited
  | Unedited
  deriving DecidableEq, Repr

/-- `DocumentLine` from content.rs: a status together with the line's
content. -/
structure DocumentLine where
  line_status : DocumentLineStatus
  content : Str
  deriving DecidableEq, Repr

/-- `SnippetInformation` from content.rs: an ordered block of lines
together with the (1-indexed, in the retrieval engine) absolute numbers
of its first and last line. -/
structure SnippetInformation where
  snippet_lines : List Str
  start_line : Nat
  end_line : Nat
  deriving DecidableEq, Repr

/-- Effectful list map over `Option`, modelling a loop whose body can
panic (`unwrap`): `none` corresponds to the panic. -/
def mapMOption (f : β → Option γ) : List β → Option (List γ)
  | [] => some []
  | b :: bs =>
    match f b, mapMOption f bs with
    | some c, some cs => some (c :: cs)
    | _, _ => none

namespace SnippetInformation

/-- The snippet's text: its lines joined by newline
(`SnippetInformation::snippet`). -/
def snippet (s : SnippetInformation) : Str :=
  joinWithChar '\n' s.snippet_lines

/-- The content the snippet assigns to absolute line number `n`: the
key set `{idx + start_line | idx < snippet_lines.len}` of the pairs
`merge_snippets` inserts into its line map. -/
def line_at (s : SnippetInformation) (n : Nat) : Option Str :=
  if s.start_line ≤ n then s.snippet_lines.get? (n - s.start_line) else none

/-- The line map built by `merge_snippets`: `self`'s pairs are inserted
first, `after`'s second, so on a shared key `after`'s content wins. -/
def merged_line_at (self after : SnippetInformation) (n : Nat) : Option Str :=
  match after.line_at n with
  | some l => some l
  | none => self.line_at n

/-- `SnippetInformation::merge_snippets`: the merged snippet runs from
`self.start_line` to `after.end_line`; each line in that span is looked
up in the map (`after` overriding `self`) and unwrapped — a missing
line is the source's panic, modelled as `none`. -/
def merge_snippets (self after : SnippetInformation) : Option SnippetInformation :=
  let start_line := self.start_line
  let end_line := after.end_line
  (mapMOption (fun i => merged_line_at self after (start_line + i))
      (List.range (end_line + 1 - start_line))).map
    (fun new_content => ⟨new_content, start_line, end_line⟩)

/-- The ordering used by `coelace_snippets`'s sort: by start line
(Rust `sort_by` on `start_line.cmp`, a stable ascending sort). -/
def startLineLe (a b : SnippetInformation) : Prop :=
  a.start_line ≤ b.start_line

instance : DecidableRel startLineLe := by
  intro a b
  unfold startLineLe
  infer_instance

instance : IsTotal SnippetInformation startLineLe :=
  ⟨fun a b => Nat.le_total a.start_line b.start_line⟩

instance : IsTrans SnippetInformation startLineLe :=
  ⟨fun _ _ _ h1 h2 => Nat.le_trans h1 h2⟩

/-- The merging scan of `coelace_snippets`: the running snippet is
merged with the next exactly when `current.end_line ≥ next.start_line`;
otherwise the running snippet is flushed.  A panic inside a merge
propagates as `none`. -/
def coelace_go (current : SnippetInformation) :
    List SnippetInformation → Option (List SnippetInformation)
  | [] => some [current]
  | next :: rest =>
    if next.start_line ≤ current.end_line then
      match merge_snippets current next with
      | some merged => coelace_go merged rest
      | none => none
    else
      (coelace_go next rest).map (fun out => current :: out)

/-- `SnippetInformation::coelace_snippets`: sort by start line, then
run the merging scan. -/
def coelace_snippets (snippets : List SnippetInformation) :
    Option (List SnippetInformation) :=
  match snippets.insertionSort startLineLe with
  | [] => some []
  | first :: rest => coelace_go first rest

/-- `BagOfWords::check_valid_token`: a token is kept when it has more
than one character. -/
def check_valid_token (token : Str) : Bool :=
  token.length > 1

/-- A word character as matched by the tokenizer's word-run pattern:
alphanumeric or underscore.  The source uses a Unicode-aware word
class; the model's case/alphanumeric predicates are the ASCII-faithful
ones, which agree on all source-code identifiers the engine tokenizes. -/
def isWordChar (c : Char) : Bool :=
  c.isAlphanum || c = '_'

/-- The maximal word-character runs of a string, in order: the matches
of the tokenizer's word-run scan over the input.  `acc` holds the
reversed run being built. -/
def wordRunsAux (acc : Str) : Str → List Str
  | [] => if acc = [] then [] else [acc.reverse]
  | c :: cs =>
    if isWordChar c then wordRunsAux (c :: acc) cs
    else if acc = [] then wordRunsAux [] cs
    else acc.reverse :: wordRunsAux [] cs

def wordRuns (s : Str) : List Str :=
  wordRunsAux [] s

/-- State of the camel-case scanner (`BagOfWords::tokenize_call`'s
mixed-case split): either between matches, inside a lowercase run,
inside an uppercase run, or inside an uppercase-then-lowercase part.
The collected characters of the current part are kept in reverse. -/
inductive CamelState where
  | outside
  | lower (acc : Str)
  | upper (acc : Str)
  | upperLower (acc : Str)

/-- The camel-case scan: splits a mixed-case token into the parts its
pattern matches, scanned left to right with first-alternative
preference and single-character backtracking out of an uppercase run
that is followed by a lowercase letter (an acronym keeps all but its
last capital; the last capital starts the next part).  Characters that
are neither lowercase nor uppercase letters (digits) match no part. -/
def camelAux : CamelState → Str → List Str
  | CamelState.outside, [] => []
  | CamelState.lower acc, [] => [acc.reverse]
  | CamelState.upper acc, [] => [acc.reverse]
  | CamelState.upperLower acc, [] => [acc.reverse]
  | CamelState.outside, c :: cs =>
    if c.isUpper then camelAux (CamelState.upper [c]) cs
    else if c.isLower then camelAux (CamelState.lower [c]) cs
    else camelAux CamelState.outside cs
  | CamelState.lower acc, c :: cs =>
    if c.isLower then camelAux (CamelState.lower (c :: acc)) cs
    else if c.isUpper then acc.reverse :: camelAux (CamelState.upper [c]) cs
    else acc.reverse :: camelAux CamelState.outside cs
  | CamelState.upper acc, c :: cs =>
    if c.isUpper then camelAux (CamelState.upper (c :: acc)) cs
    else if c.isLower then
      match acc with
      | [] => camelAux CamelState.outside cs
      | last :: rest =>
        if rest = [] then camelAux (CamelState.upperLower [c, last]) cs
        else rest.reverse :: camelAux (CamelState.upperLower [c, last]) cs
    else
      match acc with
      | [] => camelAux CamelState.outside cs
      | _ :: rest =>
        if rest = [] then camelAux CamelState.outside cs
        else rest.reverse :: camelAux CamelState.outside cs
  | CamelState.upperLower acc, c :: cs =>
    if c.isLower then camelAux (CamelState.upperLower (c :: acc)) cs
    else if c.isUpper then acc.reverse :: camelAux (CamelState.upper [c]) cs
    else acc.reverse :: camelAux CamelState.outside cs

def camelParts (s : Str) : List Str :=
  camelAux CamelState.outside s

/-- `BagOfWords::tokenize_call`: each maximal word run is split on
underscores when it contains one, split by the camel-case scan when it
contains an uppercase letter, and otherwise kept whole; parts of length
at most 1 are discarded and the rest are collected into a set. -/
def tokenize_call (code : Str) : Finset Str :=
  (wordRuns code).foldl
    (fun valid_tokens text =>
      if text.contains '_' then
        valid_tokens ∪ ((splitOnChar '_' text).filter check_valid_token).toFinset
      else if text.any Char.isUpper then
        valid_tokens ∪ ((camelParts text).filter check_valid_token).toFinset
      else if check_valid_token text then insert text valid_tokens
      else valid_tokens)
    ∅

/-- `BagOfWords` from content.rs: the token set of a snippet together
with the snippet itself. -/
structure BagOfWords where
  words : Finset Str
  snippet : SnippetInformation
  deriving DecidableEq

namespace BagOfWords

/-- `BagOfWords::new`: tokenize the joined snippet lines. -/
def new (snippet_lines : List Str) (start_line end_line : Nat) : BagOfWords :=
  { words := tokenize_call (joinWithChar '\n' snippet_lines),
    snippet := ⟨snippet_lines, start_line, end_line⟩ }

/-- `BagOfWords::jaccard_score`: intersection size over
`|A| + |B| − |A ∩ B|`, with `f32` division embedded as exact rational
division (`0 / 0 = 0` realising the spec's both-empty decision). -/
def jaccard_score (self other : BagOfWords) : ℚ :=
  let intersection_size := (self.words ∩ other.words).card
  let union_size := self.words.card + other.words.card - intersection_size
  (intersection_size : ℚ) / (union_size : ℚ)

end BagOfWords

/-- Strip one trailing carriage return, as Rust's `str::lines` does on
each produced line. -/
def stripCarriage (l : Str) : Str :=
  if l.getLast? = some '\r' then l.dropLast else l

/-- Rust's `str::lines`, used by `grab_similar_context` on the query
text: split on newline, drop a single trailing empty piece, and strip a
trailing carriage return from each line. -/
def rust_lines (s : Str) : List Str :=
  let pieces := splitOnChar '\n' s
  let pieces := if pieces.getLast? = some [] then pieces.dropLast else pieces
  pieces.map stripCarriage

/-- `DocumentEditLines` from content.rs.  The file path, language tag,
parser handle and syntax tree are omitted: in the modelled
configuration (no parser is available for the document, as in every
test of the source file) the tree is absent and contributes no
behaviour — parsing degrades gracefully per §4.2/§6. -/
structure DocumentEditLines where
  lines : List DocumentLine
  window_snippets : List BagOfWords
  deriving DecidableEq

namespace DocumentEditLines

/-- `DocumentEditLines::new`: empty content yields exactly one empty
unedited line; otherwise the content is split by the editor-compatible
line splitter, every line unedited.  The snippet cache starts empty.
(`set_tree` is a no-op without a parser.) -/
def new (content : Str) : DocumentEditLines :=
  if content = [] then
    { lines := [⟨DocumentLineStatus.Unedited, []⟩], window_snippets := [] }
  else
    { lines := (split_on_lines_editor_compatiable content).map
        (fun line_content => ⟨DocumentLineStatus.Unedited, line_content⟩),
      window_snippets := [] }

/-- `DocumentEditLines::get_content`: all lines joined by newline. -/
def get_content (doc : DocumentEditLines) : Str :=
  joinWithChar '\n' (doc.lines.map (fun line => line.content))

/-- `DocumentEditLines::remove_range`.  Same-line removal: a no-op when
the columns coincide; otherwise the end column is decremented unless it
is 0, and the code points in `[start_column, end_column]` (inclusive,
after the adjustment) are drained.  Cross-line removal: the start line
becomes the first `start_column` code points of the start line followed
by the code points of the end line from `end_column` on, and the lines
strictly between start and end, together with the end line, are
removed.  Out-of-bounds line indices panic in the source; the model
returns the document unchanged there and the theorems assume
in-bounds.  Column slicing is by `take`/`drop`, which agree with the
source's slicing under the theorems' column bounds. -/
def remove_range (doc : DocumentEditLines) (range : Range) : DocumentEditLines :=
  let start_line := range.start_line
  let start_column := range.start_column
  let end_line := range.end_line
  let end_column := range.end_column
  if start_line = end_line then
    if start_column = end_column then doc
    else
      let end_column := if range.end_column ≠ 0 then range.end_column - 1 else range.end_column
      match doc.lines.get? start_line with
      | none => doc
      | some line =>
        let new_line : DocumentLine :=
          ⟨line.line_status, line.content.take start_column ++ line.content.drop (end_column + 1)⟩
        { doc with lines := doc.lines.set start_line new_line }
  else
    match doc.lines.get? start_line, doc.lines.get? end_line with
    | some start_doc_line, some end_doc_line =>
      let start_line_prefix_chars := start_doc_line.content.take start_column
      let end_line_suffix_chars := end_doc_line.content.drop end_column
      let merged := doc.lines.set start_line
        ⟨start_doc_line.line_status, start_line_prefix_chars ++ end_line_suffix_chars⟩
      { doc with lines := merged.take (start_line + 1) ++ merged.drop (end_line + 1) }
    | _, _ => doc

/-- `DocumentEditLines::insert_at_position`: empty content inserts
nothing; otherwise the target line is split at the position's column
into a prefix and a suffix, `prefix ++ content ++ suffix` is re-split
by the editor-compatible line splitter, every resulting line is marked
`Edited`, and the resulting lines replace the target line.  An
out-of-bounds line index panics in the source; the model returns the
document unchanged there. -/
def insert_at_position (doc : DocumentEditLines) (position : Position) (content : Str) :
    DocumentEditLines :=
  if content = [] then doc
  else
    match doc.lines.get? position.line with
    | none => doc
    | some line =>
      let before_column := line.content.take position.column
      let after_column := line.content.drop position.column
      let new_content := before_column ++ content ++ after_column
      let new_lines := (split_on_lines_editor_compatiable new_content).map
        (fun l => ⟨DocumentLineStatus.Edited, l⟩)
      { doc with lines := doc.lines.take position.line ++ new_lines ++ doc.lines.drop (position.line + 1) }

/-- `DocumentEditLines::snippets_using_sliding_window` as a pure
function from the filtered lines to the snippet cache it stores: one
window over everything when at most 50 lines, else one 50-line window
per starting offset `i` in `0..len − 50` (so the window starting at
`len − 50` itself is never produced), 1-indexed. -/
def snippets_using_sliding_window (lines : List Str) : List BagOfWords :=
  if lines.length ≤ 50 then
    [BagOfWords.new lines 1 lines.length]
  else
    (List.range (lines.length - 50)).map
      (fun i => BagOfWords.new ((lines.drop i).take 50) (i + 1) (i + 1 + 49))

/-- The filtered line contents `generate_snippets` computes: with no
parser for the document (the modelled configuration) the excluded
import-line set is empty, so every line is retained. -/
def filtered_lines (doc : DocumentEditLines) : List Str :=
  doc.lines.map (fun line => line.content)

/-- `DocumentEditLines::generate_snippets` (content.rs lines 398–455):
it reparses the (absent) tree and computes `filtered_lines`, but the
final call `self.snippets_using_sliding_window(filtered_lines)` is
commented out in the source (marked `TODO(skcd): Bring this back`), so
the snippet cache is left untouched; on the model's state the function
is the identity. -/
def generate_snippets (doc : DocumentEditLines) : DocumentEditLines :=
  doc

/-- `DocumentEditLines::content_change`: remove the range, insert the
new content at the range's start position, then regenerate
snippets. -/
def content_change (doc : DocumentEditLines) (range : Range) (new_content : Str) :
    DocumentEditLines :=
  (((doc.remove_range range).insert_at_position range.start_position new_content)).generate_snippets

end DocumentEditLines

/-- Descending order on scored snippets, as produced by the source's
`sort_by(|a, b| b.0.partial_cmp(&a.0))` (scores are never NaN in the
model, so `partial_cmp` is the rational order). -/
def scoreDesc (a b : ℚ × BagOfWords) : Prop :=
  b.1 ≤ a.1

instance : DecidableRel scoreDesc := by
  intro a b
  unfold scoreDesc
  infer_instance

instance : IsTotal (ℚ × BagOfWords) scoreDesc :=
  ⟨fun a b => le_total b.1 a.1⟩

instance : IsTrans (ℚ × BagOfWords) scoreDesc :=
  ⟨fun _ _ _ h1 h2 => le_trans h2 h1⟩

/-- The scored pipeline of `DocumentEditLines::grab_similar_context`:
tokenize the query (split with Rust's `str::lines`), score every cached
window snippet, keep the scores strictly above 0.3, sort descending by
score, and truncate to at most 10. -/
def grab_similar_context_scored (window_snippets : List BagOfWords) (context : Str) :
    List (ℚ × BagOfWords) :=
  let bag_of_words := BagOfWords.new (rust_lines context) 0 0
  let scored_snippets := window_snippets.filterMap
    (fun snippet =>
      let score := snippet.jaccard_score bag_of_words
      if score > 3 / 10 then some (score, snippet) else none)
  (scored_snippets.insertionSort scoreDesc).take 10

/-- `DocumentEditLines::grab_similar_context`: the snippets of the
scored pipeline, in order. -/
def DocumentEditLines.grab_similar_context (doc : DocumentEditLines) (context : Str) :
    List SnippetInformation :=
  (grab_similar_context_scored doc.window_snippets context).map
    (fun scored => scored.2.snippet)

/-- The sort key shared by every fold/attach algorithm in types.rs:
start byte ascending, end byte descending as tie-break. -/
def blockLe (ra rb : Range) : Prop :=
  ra.start_byte < rb.start_byte ∨ (ra.start_byte = rb.start_byte ∧ rb.end_byte ≤ ra.end_byte)

/-- `blockLe` lifted along a key function, for sorting record lists. -/
def keyLe (key : α → Range) (a b : α) : Prop :=
  blockLe (key a) (key b)

instance (key : α → Range) : DecidableRel (keyLe key) := by
  intro a b
  unfold keyLe blockLe
  infer_instance

instance (key : α → Range) : IsTotal α (keyLe key) := by
  constructor
  intro a b
  unfold keyLe blockLe
  rcases Nat.lt_trichotomy (key a).start_byte (key b).start_byte with h | h | h
  · exact Or.inl (Or.inl h)
  · rcases Nat.le_total (key b).end_byte (key a).end_byte with h2 | h2
    · exact Or.inl (Or.inr ⟨h, h2⟩)
    · exact Or.inr (Or.inr ⟨h.symm, h2⟩)
  · exact Or.inr (Or.inl h)

instance (key : α → Range) : IsTrans α (keyLe key) := by
  constructor
  intro a b c hab hbc
  unfold keyLe blockLe at *
  rcases hab with h1 | ⟨h1, h1e⟩ <;> rcases hbc with h2 | ⟨h2, h2e⟩
  · exact Or.inl (Nat.lt_trans h1 h2)
  · exact Or.inl (h2 ▸ h1)
  · exact Or.inl (h1 ▸ h2)
  · exact Or.inr ⟨h1.trans h2, Nat.le_trans h2e h1e⟩

/-- The containment scan shared by `fold_function_blocks`,
`fold_class_information` and `fold_type_information`: keep the current
record, skip every following record while its range is contained in the
most recently kept record, and resume from the first record that is
not. -/
def foldScanAux (key : α → Range) (kept : α) : List α → List α
  | [] => []
  | x :: rest =>
    if Range.contains_range (key kept) (key x) then foldScanAux key kept rest
    else x :: foldScanAux key x rest

/-- The fold algorithm of types.rs, generic in the record type: sort by
(start byte ascending, end byte descending), then run the containment
scan. -/
def foldContained (key : α → Range) (blocks : List α) : List α :=
  match blocks.insertionSort (keyLe key) with
  | [] => []
  | x :: rest => x :: foldScanAux key x rest

/-- `FunctionNodeInformation` from types.rs. -/
structure FunctionNodeInformation where
  name : Str
  parameters : Str
  body : Str
  return_type : Str
  documentation : Option Str
  variable_nodes : List (Str × Range)
  deriving DecidableEq, Repr

/-- `FunctionNodeType` from types.rs. -/
inductive FunctionNodeType where
  | Identifier
  | Body
  | Function
  | Parameters
  | ReturnType
  deriving DecidableEq, Repr

/-- `FunctionInformation` from types.rs: a range, a node type, and
optional node information (absent unless `set_node_information` was
called). -/
structure FunctionInformation where
  range : Range
  node_type : FunctionNodeType
  node_information : Option FunctionNodeInformation
  deriving DecidableEq, Repr

/-- `concat_documentation_string`'s merging scan: while the next
entry's start line is exactly one past the current entry's end line,
join the strings with a line break and extend the range to the next
entry's end. -/
def concat_go (current : Range × Str) : List (Range × Str) → List (Range × Str)
  | [] => [current]
  | next :: rest =>
    if current.1.end_line + 1 = next.1.start_line then
      concat_go (current.1.set_end_position next.1.end_position, current.2 ++ '\n' :: next.2) rest
    else current :: concat_go next rest

/-- `concat_documentation_string` from types.rs: sort the documentation
entries by (start byte, end byte descending), then merge consecutive
entries that sit on consecutive lines. -/
def concat_documentation_string (documentation_entries : List (Range × Str)) :
    List (Range × Str) :=
  match documentation_entries.insertionSort (keyLe Prod.fst) with
  | [] => []
  | first :: rest => concat_go first rest

namespace FunctionInformation

/-- `FunctionInformation::new`: node information starts absent. -/
def new (range : Range) (node_type : FunctionNodeType) : FunctionInformation :=
  ⟨range, node_type, none⟩

/-- `FunctionInformation::set_documentation`: stores the documentation
inside the node information — a no-op when `node_information` is
`None`. -/
def set_documentation (fb : FunctionInformation) (documentation : Str) :
    FunctionInformation :=
  let updated := fb.node_information.map
    (fun ni => { ni with documentation := some documentation })
  { fb with node_information := updated }

/-- `FunctionInformation::fold_function_blocks`. -/
def fold_function_blocks (function_blocks : List FunctionInformation) :
    List FunctionInformation :=
  foldContained (fun fb => fb.range) function_blocks

/-- One step of `add_documentation_to_functions`'s inner loop: when the
block does not start at line 0 and the entry ends exactly one line
above the block's (current) start line, attach the documentation (a
no-op without node information) and move the block's range start to the
entry's start position. -/
def applyDocumentationEntry (fb : FunctionInformation) (e : Range × Str) :
    FunctionInformation :=
  if fb.range.start_line ≠ 0 ∧ e.1.end_line = fb.range.start_line - 1 then
    let fb := fb.set_documentation e.2
    { fb with range := fb.range.set_start_position e.1.start_position }
  else fb

/-- `FunctionInformation::add_documentation_to_functions`: sort the
blocks, concatenate the documentation entries, and run every
concatenated entry (in order) over every block. -/
def add_documentation_to_functions (function_blocks : List FunctionInformation)
    (documentation_entries : List (Range × Str)) : List FunctionInformation :=
  let sorted := function_blocks.insertionSort (keyLe (fun fb => fb.range))
  let documentation_entires := concat_documentation_string documentation_entries
  sorted.map (fun fb => documentation_entires.foldl applyDocumentationEntry fb)

end FunctionInformation

/-- `ClassNodeType` from types.rs. -/
inductive ClassNodeType where
  | Identifier
  | ClassDeclaration
  deriving DecidableEq, Repr

/-- `ClassInformation` from types.rs. -/
structure ClassInformation where
  range : Range
  name : Str
  class_node_type : ClassNodeType
  documentation : Option Str
  deriving DecidableEq, Repr

/-- `ClassInformation::fold_class_information` — textually the same
algorithm as `fold_function_blocks`. -/
def ClassInformation.fold_class_information (classes : List ClassInformation) :
    List ClassInformation :=
  foldContained (fun c => c.range) classes

/-- `TypeNodeType` from types.rs. -/
inductive TypeNodeType where
  | Identifier
  | TypeDeclaration
  deriving DecidableEq, Repr

/-- `TypeInformation` from types.rs. -/
structure TypeInformation where
  range : Range
  name : Str
  node_type : TypeNodeType
  documentation : Option Str
  deriving DecidableEq, Repr

/-- `TypeInformation::fold_type_information` — textually the same
algorithm as `fold_function_blocks`. -/
def TypeInformation.fold_type_information (types : List TypeInformation) :
    List TypeInformation :=
  foldContained (fun t => t.range) types

theorem split_on_lines_ne_nil (content : Str) :
    split_on_lines_editor_compatiable content ≠ [] :=
  splitOnChar_ne_nil '\n' content

/-- Claim C8: `get_content()` on a freshly constructed `DocumentEditLines`
that has received no edits returns the construction content exactly
(including trailing blank lines), and constructing from the empty
string yields a buffer of exactly one empty line. -/
theorem claim_C8_round_trip (content : Str) :
    (DocumentEditLines.new content).get_content = content ∧
    (DocumentEditLines.new []).lines = [⟨DocumentLineStatus.Unedited, []⟩] := by
  refine ⟨?_, rfl⟩
  unfold DocumentEditLines.new DocumentEditLines.get_content
  by_cases h : content = []
  · subst h
    rfl
  · simp only [if_neg h, List.map_map]
    have hmap : ((fun line => line.content) ∘
        fun line_content => (⟨DocumentLineStatus.Unedited, line_content⟩ : DocumentLine)) =
        (id : Str → Str) := rfl
    rw [hmap, List.map_id]
    exact joinWithChar_splitOnChar '\n' content

theorem new_lines_ne_nil (content : Str) :
    (DocumentEditLines.new content).lines ≠ [] := by
  unfold DocumentEditLines.new
  by_cases h : content = []
  · simp [h]
  · simp only [if_neg h]
    intro hc
    exact split_on_lines_ne_nil content (List.map_eq_nil_iff.mp hc)

theorem take_ne_nil_of_ne_nil {l : List γ} (n : Nat) (h : l ≠ []) :
    l.take (n + 1) ≠ [] := by
  cases l with
  | nil => exact absurd rfl h
  | cons x xs => simp [List.take_cons]

theorem remove_range_lines_ne_nil (doc : DocumentEditLines) (range : Range)
    (h : doc.lines ≠ []) : (doc.remove_range range).lines ≠ [] := by
  unfold DocumentEditLines.remove_range
  by_cases heq : range.start_line = range.end_line
  · simp only [if_pos heq]
    by_cases hcol : range.start_column = range.end_column
    · simpa [hcol] using h
    · simp only [if_neg hcol]
      cases hget : doc.lines.get? range.start_line with
      | none => simpa using h
      | some line =>
        simp only []
        intro hc
        have := congrArg List.length hc
        simp [List.length_set] at this
        exact h this
  · simp only [if_neg heq]
    cases hgs : doc.lines.get? range.start_line with
    | none => simpa using h
    | some sline =>
      cases hge : doc.lines.get? range.end_line with
      | none => simpa using h
      | some eline =>
        simp only []
        intro hc
        rcases List.append_eq_nil.mp hc with ⟨htake, _⟩
        have hne : doc.lines.set range.start_line
            ⟨sline.line_status,
              sline.content.take range.start_column ++ eline.content.drop range.end_column⟩ ≠ [] := by
          intro hz
          have := congrArg List.length hz
          simp [List.length_set] at this
          exact h this
        exact take_ne_nil_of_ne_nil range.start_line hne htake

theorem insert_at_position_lines_ne_nil (doc : DocumentEditLines) (position : Position)
    (content : Str) (h : doc.lines ≠ []) :
    (doc.insert_at_position position content).lines ≠ [] := by
  unfold DocumentEditLines.insert_at_position
  by_cases hc : content = []
  · simpa [hc] using h
  · simp only [if_neg hc]
    cases hget : doc.lines.get? position.line with
    | none => simpa using h
    | some line =>
      simp only []
      intro hz
      rcases List.append_eq_nil.mp hz with ⟨hz1, _⟩
      rcases List.append_eq_nil.mp hz1 with ⟨_, hmid⟩
      exact split_on_lines_ne_nil _ (List.map_eq_nil_iff.mp hmid)

/-- Claim C9: a `DocumentEditLines` buffer always contains at least one
line: construction produces one or more lines, and `remove_range`,
`insert_at_position` and `content_change` each preserve a non-empty
line sequence (so `get_content` and the position-based operations are
always defined on a non-empty sequence of lines). -/
theorem claim_C9_at_least_one_line :
    (∀ content : Str, (DocumentEditLines.new content).lines ≠ []) ∧
    (∀ (doc : DocumentEditLines) (range : Range),
      doc.lines ≠ [] → (doc.remove_range range).lines ≠ []) ∧
    (∀ (doc : DocumentEditLines) (position : Position) (content : Str),
      doc.lines ≠ [] → (doc.insert_at_position position content).lines ≠ []) ∧
    (∀ (doc : DocumentEditLines) (range : Range) (new_content : Str),
      doc.lines ≠ [] → (doc.content_change range new_content).lines ≠ []) := by
  refine ⟨new_lines_ne_nil, remove_range_lines_ne_nil, insert_at_position_lines_ne_nil, ?_⟩
  intro doc range new_content h
  exact insert_at_position_lines_ne_nil _ _ _ (remove_range_lines_ne_nil _ _ h)

/-- Witness for claim C9 at a concrete buffer and edit. -/
theorem claim_C9_at_least_one_line_witness :
    ((DocumentEditLines.new ([] : Str)).content_change
        ⟨⟨0, 0, 0⟩, ⟨0, 0, 0⟩⟩ ('h' :: 'i' :: [])).lines ≠ [] :=
  claim_C9_at_least_one_line.2.2.2 (DocumentEditLines.new ([] : Str))
    ⟨⟨0, 0, 0⟩, ⟨0, 0, 0⟩⟩ ('h' :: 'i' :: []) (by decide)

theorem inter_card_le_union_size (A B : Finset Str) :
    (A ∩ B).card ≤ A.card + B.card - (A ∩ B).card := by
  have h1 : (A ∩ B).card ≤ A.card := Finset.card_le_card Finset.inter_subset_left
  have h2 : (A ∩ B).card ≤ B.card := Finset.card_le_card Finset.inter_subset_right
  omega

/-- Claim C6: `jaccard_score` equals `|A ∩ B| / (|A| + |B| − |A ∩ B|)`
and lies in `[0, 1]`; it is 1 iff the two token sets are equal and
non-empty; it is 0 iff they are disjoint, the both-empty case yielding
0. -/
theorem claim_C6_jaccard_score (b1 b2 : BagOfWords) :
    b1.jaccard_score b2 =
      ((b1.words ∩ b2.words).card : ℚ) /
        ((b1.words.card + b2.words.card - (b1.words ∩ b2.words).card : ℕ) : ℚ) ∧
    0 ≤ b1.jaccard_score b2 ∧ b1.jaccard_score b2 ≤ 1 ∧
    (b1.jaccard_score b2 = 1 ↔ (b1.words = b2.words ∧ b1.words ≠ ∅)) ∧
    (b1.jaccard_score b2 = 0 ↔ b1.words ∩ b2.words = ∅) ∧
    (b1.words = ∅ → b2.words = ∅ → b1.jaccard_score b2 = 0) := by
  set A := b1.words with hA
  set B := b2.words with hB
  set i := (A ∩ B).card with hi
  set u := A.card + B.card - i with hu
  have hscore : b1.jaccard_score b2 = (i : ℚ) / (u : ℚ) := rfl
  have hia : i ≤ A.card := Finset.card_le_card Finset.inter_subset_left
  have hib : i ≤ B.card := Finset.card_le_card Finset.inter_subset_right
  have hiu : i ≤ u := inter_card_le_union_size A B
  have hu0 : u = 0 → i = 0 := by omega
  refine ⟨hscore, ?_, ?_, ?_, ?_, ?_⟩
  · rw [hscore]
    positivity
  · rw [hscore]
    rcases Nat.eq_zero_or_pos u with h | h
    · rw [h, hu0 h]
      norm_num
    · rw [div_le_one (by exact_mod_cast h)]
      exact_mod_cast hiu
  · rw [hscore]
    constructor
    · intro hone
      rcases Nat.eq_zero_or_pos u with h | h
      · rw [h, hu0 h] at hone
        norm_num at hone
      · have hub : (u : ℚ) ≠ 0 := by exact_mod_cast h.ne'
        rw [div_eq_one_iff_eq hub] at hone
        have hiu' : i = u := by exact_mod_cast hone
        have hieq : i = A.card ∧ i = B.card := by omega
        have hAB : A ∩ B = A :=
          Finset.eq_of_subset_of_card_le Finset.inter_subset_left (le_of_eq hieq.1.symm)
        have hBA : A ∩ B = B :=
          Finset.eq_of_subset_of_card_le Finset.inter_subset_right (le_of_eq hieq.2.symm)
        have hABeq : A = B := by rw [← hAB, hBA]
        refine ⟨hABeq, ?_⟩
        intro hAe
        rw [hAe] at hieq
        simp at hieq
        omega
    · rintro ⟨hABeq, hAne⟩
      have hinter : A ∩ B = A := by rw [← hABeq, Finset.inter_self]
      have hiA : i = A.card := by rw [hi, hinter]
      have hBcard : B.card = A.card := by rw [hABeq]
      have huA : u = A.card := by omega
      have hApos : 0 < A.card := Finset.card_pos.mpr (Finset.nonempty_of_ne_empty hAne)
      have hAcardQ : (A.card : ℚ) ≠ 0 := by exact_mod_cast hApos.ne'
      rw [hiA, huA, div_self hAcardQ]
  · rw [hscore]
    constructor
    · intro hzero
      rcases div_eq_zero_iff.mp hzero with h | h
      · exact Finset.card_eq_zero.mp (by exact_mod_cast h)
      · have : u = 0 := by exact_mod_cast h
        exact Finset.card_eq_zero.mp (hu0 this)
    · intro hdisj
      have : i = 0 := Finset.card_eq_zero.mpr hdisj
      rw [this]
      simp
  · intro h1 h2
    rw [hscore]
    have : i = 0 := by
      rw [hi, h1]
      simp
    rw [this]
    simp

/-- Claim C2: for every buffer state and query, `grab_similar_context`
returns at most 10 snippets, sourced one-to-one from the scored
pipeline; every entry of the scored pipeline carries the Jaccard score
of its snippet against the tokenized query and that score is strictly
greater than 0.3; and the pipeline's scores are in non-increasing
order. -/
theorem claim_C2_retrieval_cap (doc : DocumentEditLines) (context : Str) :
    (doc.grab_similar_context context).length ≤ 10 ∧
    doc.grab_similar_context context =
      (grab_similar_context_scored doc.window_snippets context).map
        (fun scored => scored.2.snippet) ∧
    (∀ scored ∈ grab_similar_context_scored doc.window_snippets context,
      scored.2 ∈ doc.window_snippets ∧
      scored.1 = scored.2.jaccard_score (BagOfWords.new (rust_lines context) 0 0) ∧
      3 / 10 < scored.1) ∧
    ((grab_similar_context_scored doc.window_snippets context).map
        (fun scored => scored.1)).Sorted (fun a b => b ≤ a) := by
  have hmem : ∀ scored ∈ grab_similar_context_scored doc.window_snippets context,
      scored.2 ∈ doc.window_snippets ∧
      scored.1 = scored.2.jaccard_score (BagOfWords.new (rust_lines context) 0 0) ∧
      3 / 10 < scored.1 := by
    intro scored hs
    unfold grab_similar_context_scored at hs
    have hs2 := (List.take_sublist 10 _).mem hs
    rw [List.mem_insertionSort] at hs2
    rcases List.mem_filterMap.mp hs2 with ⟨snip, hsnip, heq⟩
    by_cases hgt : snip.jaccard_score (BagOfWords.new (rust_lines context) 0 0) > 3 / 10
    · rw [if_pos hgt] at heq
      cases heq
      exact ⟨hsnip, rfl, hgt⟩
    · rw [if_neg hgt] at heq
      cases heq
  refine ⟨?_, rfl, hmem, ?_⟩
  · unfold DocumentEditLines.grab_similar_context grab_similar_context_scored
    simp only [List.length_map, List.length_take]
    omega
  · have hsorted : (grab_similar_context_scored doc.window_snippets context).Sorted scoreDesc := by
      unfold grab_similar_context_scored
      exact List.Pairwise.sublist (List.take_sublist 10 _)
        (List.sorted_insertionSort scoreDesc _)
    rw [List.Sorted, List.pairwise_map]
    exact hsorted

theorem take_succ_of_set (l : List γ) (n : Nat) (v : γ)
    (h : n < l.length) : (l.set n v).take (n + 1) = l.take n ++ [v] := by
  rw [List.set_eq_take_append_cons_drop, if_pos h, List.take_append_eq_append_take]
  have hlen : (l.take n).length = n := by
    rw [List.length_take]
    omega
  rw [List.take_of_length_le (by omega), hlen]
  simp

/-- Claim C3: for an in-bounds range whose start line is strictly below
its end line, `remove_range` replaces the start line by the first
`start_column` code points of the start line followed by the code
points of the end line from `end_column` on, and deletes the lines
strictly between them together with the end line.  Columns are
code-point indices by construction of the model (`Str = List Char`), so
a multi-byte character is never split. -/
theorem claim_C3_remove_range_cross_line (doc : DocumentEditLines) (range : Range)
    (sline eline : DocumentLine)
    (hlt : range.start_line < range.end_line)
    (hgs : doc.lines.get? range.start_line = some sline)
    (hge : doc.lines.get? range.end_line = some eline)
    (hsc : range.start_column ≤ sline.content.length)
    (hec : range.end_column ≤ eline.content.length) :
    (doc.remove_range range).lines =
      doc.lines.take range.start_line
      ++ [⟨sline.line_status,
            sline.content.take range.start_column ++ eline.content.drop range.end_column⟩]
      ++ doc.lines.drop (range.end_line + 1) := by
  have hne : range.start_line ≠ range.end_line := Nat.ne_of_lt hlt
  have hslt : range.start_line < doc.lines.length := by
    rcases List.get?_eq_some.mp hgs with ⟨h, _⟩
    exact h
  unfold DocumentEditLines.remove_range
  simp only [if_neg hne, hgs, hge]
  have hdrop : (doc.lines.set range.start_line
      ⟨sline.line_status,
        sline.content.take range.start_column ++ eline.content.drop range.end_column⟩).drop
      (range.end_line + 1) = doc.lines.drop (range.end_line + 1) := by
    rw [List.drop_set, if_pos (by omega)]
  rw [take_succ_of_set _ _ _ hslt, hdrop, List.append_assoc]

/-- Witness for claim C3: removing (line 0, col 1)–(line 2, col 2) from
a three-line buffer keeps one code point of the first line and the tail
of the third. -/
theorem claim_C3_remove_range_cross_line_witness :
    ((DocumentEditLines.new ('a' :: 'b' :: '\n' :: 'c' :: '\n' :: 'd' :: 'e' :: 'f' :: [])).remove_range
        ⟨⟨0, 1, 0⟩, ⟨2, 2, 0⟩⟩).lines =
      [⟨DocumentLineStatus.Unedited, 'a' :: 'f' :: []⟩] := by
  have h := claim_C3_remove_range_cross_line
    (DocumentEditLines.new ('a' :: 'b' :: '\n' :: 'c' :: '\n' :: 'd' :: 'e' :: 'f' :: []))
    ⟨⟨0, 1, 0⟩, ⟨2, 2, 0⟩⟩
    ⟨DocumentLineStatus.Unedited, 'a' :: 'b' :: []⟩
    ⟨DocumentLineStatus.Unedited, 'd' :: 'e' :: 'f' :: []⟩
    (by decide) (by decide) (by decide) (by decide) (by decide)
  rw [h]
  rfl

/-- Claim C7: for an in-bounds position and non-empty content,
`insert_at_position` splits the target line at the position's
code-point column, re-splits prefix ++ content ++ suffix with the
editor-compatible line splitter into one or more lines, marks every
resulting line `Edited`, and splices them in place of the target line;
empty content leaves the buffer completely unchanged. -/
theorem claim_C7_insert_at_position :
    (∀ (doc : DocumentEditLines) (position : Position) (content : Str)
        (line : DocumentLine),
      doc.lines.get? position.line = some line →
      position.column ≤ line.content.length →
      content ≠ [] →
      (doc.insert_at_position position content).lines =
        doc.lines.take position.line
        ++ (split_on_lines_editor_compatiable
              (line.content.take position.column ++ content
                ++ line.content.drop position.column)).map
             (fun l => ⟨DocumentLineStatus.Edited, l⟩)
        ++ doc.lines.drop (position.line + 1) ∧
      (split_on_lines_editor_compatiable
          (line.content.take position.column ++ content
            ++ line.content.drop position.column)).map
        (fun l => (⟨DocumentLineStatus.Edited, l⟩ : DocumentLine)) ≠ []) ∧
    (∀ (doc : DocumentEditLines) (position : Position),
      doc.insert_at_position position [] = doc) := by
  constructor
  · intro doc position content line hget _hcol hne
    constructor
    · unfold DocumentEditLines.insert_at_position
      simp only [if_neg hne, hget]
    · intro hz
      exact split_on_lines_ne_nil _ (List.map_eq_nil_iff.mp hz)
  · intro doc position
    unfold DocumentEditLines.insert_at_position
    simp

/-- Witness for claim C7: inserting a two-line string in the middle of
a one-line buffer splices two `Edited` lines. -/
theorem claim_C7_insert_at_position_witness :
    ((DocumentEditLines.new ('a' :: 'b' :: [])).insert_at_position ⟨0, 1, 0⟩
        ('x' :: '\n' :: 'y' :: [])).lines =
      [⟨DocumentLineStatus.Edited, 'a' :: 'x' :: []⟩,
       ⟨DocumentLineStatus.Edited, 'y' :: 'b' :: []⟩] := by
  have h := (claim_C7_insert_at_position.1
    (DocumentEditLines.new ('a' :: 'b' :: []))
    ⟨0, 1, 0⟩ ('x' :: '\n' :: 'y' :: [])
    ⟨DocumentLineStatus.Unedited, 'a' :: 'b' :: []⟩
    (by decide) (by decide) (by decide)).1
  rw [h]
  rfl

theorem contains_range_refl (r : Range) : Range.contains_range r r :=
  ⟨le_refl _, le_refl _⟩

theorem foldScanAux_subset (key : α → Range) (kept : α) (l : List α) :
    ∀ z ∈ foldScanAux key kept l, z ∈ l := by
  induction l generalizing kept with
  | nil => intro z hz; simpa [foldScanAux] using hz
  | cons x rest ih =>
    intro z hz
    unfold foldScanAux at hz
    by_cases hcont : Range.contains_range (key kept) (key x)
    · rw [if_pos hcont] at hz
      exact List.mem_cons_of_mem x (ih kept z hz)
    · rw [if_neg hcont] at hz
      rcases List.mem_cons.mp hz with h | h
      · exact h ▸ List.mem_cons_self x rest
      · exact List.mem_cons_of_mem x (ih x z h)

theorem foldScanAux_coverage (key : α → Range) (kept : α) (l : List α) :
    ∀ x ∈ l, Range.contains_range (key kept) (key x) ∨
      ∃ y ∈ foldScanAux key kept l, Range.contains_range (key y) (key x) := by
  induction l generalizing kept with
  | nil => intro x hx; cases hx
  | cons z rest ih =>
    intro x hx
    unfold foldScanAux
    by_cases hcont : Range.contains_range (key kept) (key z)
    · rw [if_pos hcont]
      rcases List.mem_cons.mp hx with h | h
      · exact Or.inl (h ▸ hcont)
      · exact ih kept x h
    · rw [if_neg hcont]
      rcases List.mem_cons.mp hx with h | h
      · refine Or.inr ⟨z, List.mem_cons_self _ _, ?_⟩
        rw [h]
        exact contains_range_refl (key z)
      · rcases ih z x h with hin | ⟨y, hy, hyc⟩
        · exact Or.inr ⟨z, List.mem_cons_self _ _, hin⟩
        · exact Or.inr ⟨y, List.mem_cons_of_mem z hy, hyc⟩

theorem foldScanAux_of_not_contained (key : α → Range) (kept : α) (l : List α)
    (hkept : ∀ x ∈ l, ¬ Range.contains_range (key kept) (key x))
    (hpair : l.Pairwise (fun a b => ¬ Range.contains_range (key a) (key b))) :
    foldScanAux key kept l = l := by
  induction l generalizing kept with
  | nil => rfl
  | cons x rest ih =>
    unfold foldScanAux
    rw [if_neg (hkept x (List.mem_cons_self x rest))]
    rcases List.pairwise_cons.mp hpair with ⟨hx, hrest⟩
    rw [ih x hx hrest]

theorem foldContained_sorted_non_containing_eq (key : α → Range) (l : List α)
    (hsorted : l.Sorted (keyLe key))
    (hpair : l.Pairwise (fun a b => ¬ Range.contains_range (key a) (key b) ∧
      ¬ Range.contains_range (key b) (key a))) :
    foldContained key l = l := by
  unfold foldContained
  rw [hsorted.insertionSort_eq]
  cases l with
  | nil => rfl
  | cons x rest =>
    rcases List.pairwise_cons.mp hpair with ⟨hx, hrest⟩
    show x :: foldScanAux key x rest = x :: rest
    rw [foldScanAux_of_not_contained key x rest (fun z hz => (hx z hz).1)
      (List.Pairwise.imp (fun h => h.1) hrest)]

theorem foldContained_mem (key : α → Range) (l : List α) :
    ∀ z ∈ foldContained key l, z ∈ l := by
  intro z hz
  unfold foldContained at hz
  rcases hsort : l.insertionSort (keyLe key) with _ | ⟨x, rest⟩
  · rw [hsort] at hz
    cases hz
  · rw [hsort] at hz
    have hmem : z ∈ x :: rest := by
      rcases List.mem_cons.mp hz with h | h
      · exact h ▸ List.mem_cons_self x rest
      · exact List.mem_cons_of_mem x (foldScanAux_subset key x rest z h)
    rw [← hsort] at hmem
    exact (List.mem_insertionSort (keyLe key)).mp hmem

theorem foldContained_coverage (key : α → Range) (l : List α) :
    ∀ x ∈ l, ∃ y ∈ foldContained key l, Range.contains_range (key y) (key x) := by
  intro x hx
  unfold foldContained
  rcases hsort : l.insertionSort (keyLe key) with _ | ⟨z, rest⟩
  · have : l = [] := by
      have := List.perm_insertionSort (keyLe key) l
      rw [hsort] at this
      exact (List.Perm.nil_eq this).symm
    rw [this] at hx
    cases hx
  · have hx' : x ∈ z :: rest := by
      rw [← hsort]
      exact (List.mem_insertionSort (keyLe key)).mpr hx
    rcases List.mem_cons.mp hx' with h | h
    · exact ⟨z, List.mem_cons_self _ _, h ▸ contains_range_refl (key z)⟩
    · rcases foldScanAux_coverage key z rest x h with hin | ⟨y, hy, hyc⟩
      · exact ⟨z, List.mem_cons_self _ _, hin⟩
      · exact ⟨y, List.mem_cons_of_mem z hy, hyc⟩

theorem foldContained_pair_drops_inner (key : α → Range) (a b : α)
    (hcont : Range.contains_range (key a) (key b))
    (hstrict : ¬ Range.contains_range (key b) (key a)) :
    foldContained key [a, b] = [a] ∧ foldContained key [b, a] = [a] := by
  have hab : keyLe key a b := by
    unfold keyLe blockLe
    rcases hcont with ⟨h1, h2⟩
    rcases Nat.lt_or_ge (key a).start_byte (key b).start_byte with h | h
    · exact Or.inl h
    · exact Or.inr ⟨le_antisymm h1 h, h2⟩
  have hnba : ¬ keyLe key b a := by
    unfold keyLe blockLe
    rcases hcont with ⟨h1, h2⟩
    rintro (h | ⟨h3, h4⟩)
    · omega
    · exact hstrict ⟨le_of_eq h3, h4⟩
  constructor
  · unfold foldContained
    have hsorted : List.Sorted (keyLe key) [a, b] := by
      simp [List.sorted_cons, hab]
    rw [hsorted.insertionSort_eq]
    show a :: foldScanAux key a [b] = [a]
    simp [foldScanAux, hcont]
  · unfold foldContained
    have hins : List.insertionSort (keyLe key) [b, a] = [a, b] := by
      show List.orderedInsert (keyLe key) b (List.orderedInsert (keyLe key) a []) = [a, b]
      simp [List.orderedInsert, if_neg hnba]
    rw [hins]
    show a :: foldScanAux key a [b] = [a]
    simp [foldScanAux, hcont]

/-- Counterexample to claim C5 as stated: folding is not the
identity on every pairwise non-containing list, because the fold sorts
first — a non-containing list given out of (start byte, end byte
descending) order comes back reordered. -/
theorem claim_C5_counterexample :
    ¬ Range.contains_range ⟨⟨0, 0, 10⟩, ⟨0, 0, 20⟩⟩ ⟨⟨0, 0, 0⟩, ⟨0, 0, 5⟩⟩ ∧
    ¬ Range.contains_range ⟨⟨0, 0, 0⟩, ⟨0, 0, 5⟩⟩ ⟨⟨0, 0, 10⟩, ⟨0, 0, 20⟩⟩ ∧
    FunctionInformation.fold_function_blocks
        [⟨⟨⟨0, 0, 10⟩, ⟨0, 0, 20⟩⟩, FunctionNodeType.Body, none⟩,
         ⟨⟨⟨0, 0, 0⟩, ⟨0, 0, 5⟩⟩, FunctionNodeType.Body, none⟩] ≠
      [⟨⟨⟨0, 0, 10⟩, ⟨0, 0, 20⟩⟩, FunctionNodeType.Body, none⟩,
       ⟨⟨⟨0, 0, 0⟩, ⟨0, 0, 5⟩⟩, FunctionNodeType.Body, none⟩] := by
  refine ⟨by decide, by decide, ?_⟩
  decide

/-- Claim C5 (amended): the fold sorts by (start byte ascending, end
byte descending) and drops every record contained in the most recently
kept one; consequently a list that is *already in that order* and
pairwise non-containing is returned unchanged (on an unsorted input the
output is the sorted reordering); the output is always a subset of the
input and every input record's range is contained in some output
record's range; and on a two-element list whose one range lies strictly
inside the other the inner record is dropped and the outer kept — for
functions, classes and types alike. -/
theorem claim_C5_fold_amended :
    (∀ l : List FunctionInformation,
      l.Sorted (keyLe (fun fb => fb.range)) →
      l.Pairwise (fun a b => ¬ Range.contains_range a.range b.range ∧
        ¬ Range.contains_range b.range a.range) →
      FunctionInformation.fold_function_blocks l = l) ∧
    (∀ l : List ClassInformation,
      l.Sorted (keyLe (fun c => c.range)) →
      l.Pairwise (fun a b => ¬ Range.contains_range a.range b.range ∧
        ¬ Range.contains_range b.range a.range) →
      ClassInformation.fold_class_information l = l) ∧
    (∀ l : List TypeInformation,
      l.Sorted (keyLe (fun t => t.range)) →
      l.Pairwise (fun a b => ¬ Range.contains_range a.range b.range ∧
        ¬ Range.contains_range b.range a.range) →
      TypeInformation.fold_type_information l = l) ∧
    (∀ (l : List FunctionInformation) (z : FunctionInformation),
      z ∈ FunctionInformation.fold_function_blocks l → z ∈ l) ∧
    (∀ (l : List FunctionInformation) (x : FunctionInformation), x ∈ l →
      ∃ y ∈ FunctionInformation.fold_function_blocks l,
        Range.contains_range y.range x.range) ∧
    (∀ a b : FunctionInformation,
      Range.contains_range a.range b.range →
      ¬ Range.contains_range b.range a.range →
      FunctionInformation.fold_function_blocks [a, b] = [a] ∧
      FunctionInformation.fold_function_blocks [b, a] = [a]) ∧
    (∀ a b : ClassInformation,
      Range.contains_range a.range b.range →
      ¬ Range.contains_range b.range a.range →
      ClassInformation.fold_class_information [a, b] = [a] ∧
      ClassInformation.fold_class_information [b, a] = [a]) ∧
    (∀ a b : TypeInformation,
      Range.contains_range a.range b.range →
      ¬ Range.contains_range b.range a.range →
      TypeInformation.fold_type_information [a, b] = [a] ∧
      TypeInformation.fold_type_information [b, a] = [a]) := by
  refine ⟨?_, ?_, ?_, ?_, ?_, ?_, ?_, ?_⟩
  · exact fun l hs hp => foldContained_sorted_non_containing_eq _ l hs hp
  · exact fun l hs hp => foldContained_sorted_non_containing_eq _ l hs hp
  · exact fun l hs hp => foldContained_sorted_non_containing_eq _ l hs hp
  · exact fun l z hz => foldContained_mem _ l z hz
  · exact fun l x hx => foldContained_coverage _ l x hx
  · exact fun a b h1 h2 => foldContained_pair_drops_inner _ a b h1 h2
  · exact fun a b h1 h2 => foldContained_pair_drops_inner _ a b h1 h2
  · exact fun a b h1 h2 => foldContained_pair_drops_inner _ a b h1 h2

/-- Witness for claim C5 (amended): a sorted non-containing pair is
kept unchanged, and a strictly nested pair collapses to the outer
record. -/
theorem claim_C5_fold_amended_witness :
    FunctionInformation.fold_function_blocks
        [⟨⟨⟨0, 0, 0⟩, ⟨0, 0, 5⟩⟩, FunctionNodeType.Body, none⟩,
         ⟨⟨⟨0, 0, 10⟩, ⟨0, 0, 20⟩⟩, FunctionNodeType.Body, none⟩] =
      [⟨⟨⟨0, 0, 0⟩, ⟨0, 0, 5⟩⟩, FunctionNodeType.Body, none⟩,
       ⟨⟨⟨0, 0, 10⟩, ⟨0, 0, 20⟩⟩, FunctionNodeType.Body, none⟩] ∧
    FunctionInformation.fold_function_blocks
        [⟨⟨⟨0, 0, 2⟩, ⟨0, 0, 4⟩⟩, FunctionNodeType.Body, none⟩,
         ⟨⟨⟨0, 0, 0⟩, ⟨0, 0, 9⟩⟩, FunctionNodeType.Body, none⟩] =
      [⟨⟨⟨0, 0, 0⟩, ⟨0, 0, 9⟩⟩, FunctionNodeType.Body, none⟩] := by
  constructor
  · exact claim_C5_fold_amended.1 _ (by decide) (by decide)
  · exact (claim_C5_fold_amended.2.2.2.2.2.1
      ⟨⟨⟨0, 0, 0⟩, ⟨0, 0, 9⟩⟩, FunctionNodeType.Body, none⟩
      ⟨⟨⟨0, 0, 2⟩, ⟨0, 0, 4⟩⟩, FunctionNodeType.Body, none⟩
      (by decide) (by decide)).2

theorem mapMOption_eq_some_map (f : β → Option γ) (g : β → γ) :
    ∀ l : List β, (∀ b ∈ l, f b = some (g b)) → mapMOption f l = some (l.map g)
  | [], _ => rfl
  | b :: bs, h => by
    unfold mapMOption
    rw [h b (List.mem_cons_self b bs), mapMOption_eq_some_map f g bs
      (fun x hx => h x (List.mem_cons_of_mem b hx))]
    rfl

theorem get?_eq_some_getD (l : List γ) (n : Nat) (d : γ) (h : n < l.length) :
    l.get? n = some (l.getD n d) := by
  rw [List.getD_eq_get?, List.get?_eq_get h]
  rfl

theorem coelace_go_cons (current next : SnippetInformation)
    (rest : List SnippetInformation) :
    SnippetInformation.coelace_go current (next :: rest) =
      if next.start_line ≤ current.end_line then
        match SnippetInformation.merge_snippets current next with
        | some merged => SnippetInformation.coelace_go merged rest
        | none => none
      else (SnippetInformation.coelace_go next rest).map (fun out => current :: out) := rfl

theorem merged_line_at_eq (current next : SnippetInformation)
    (hwfc : current.snippet_lines.length = current.end_line + 1 - current.start_line)
    (hwfn : next.snippet_lines.length = next.end_line + 1 - next.start_line)
    (hsort : current.start_line ≤ next.start_line)
    (hov : next.start_line ≤ current.end_line) (i : Nat)
    (hi : i < next.end_line + 1 - current.start_line) :
    SnippetInformation.merged_line_at current next (current.start_line + i) =
      some (if next.start_line ≤ current.start_line + i ∧
              current.start_line + i ≤ next.end_line
            then next.snippet_lines.getD (current.start_line + i - next.start_line) []
            else current.snippet_lines.getD i []) := by
  have hile : current.start_line + i ≤ next.end_line := by omega
  unfold SnippetInformation.merged_line_at SnippetInformation.line_at
  by_cases hcase : next.start_line ≤ current.start_line + i
  · have hidx : current.start_line + i - next.start_line < next.snippet_lines.length := by
      omega
    rw [if_pos hcase, get?_eq_some_getD _ _ [] hidx,
      if_pos (And.intro hcase hile)]
  · have hnand : ¬ (next.start_line ≤ current.start_line + i ∧
        current.start_line + i ≤ next.end_line) := fun hand => hcase hand.1
    have hlt : current.start_line + i < next.start_line := Nat.lt_of_not_le hcase
    have hidx : i < current.snippet_lines.length := by omega
    rw [if_neg hcase, if_pos (Nat.le_add_right _ _), Nat.add_sub_cancel_left,
      get?_eq_some_getD _ _ [] hidx, if_neg hnand]

theorem merge_snippets_spec (current next : SnippetInformation)
    (hwfc : current.snippet_lines.length = current.end_line + 1 - current.start_line)
    (hwfn : next.snippet_lines.length = next.end_line + 1 - next.start_line)
    (hsort : current.start_line ≤ next.start_line)
    (hov : next.start_line ≤ current.end_line) :
    SnippetInformation.merge_snippets current next =
      some ⟨(List.range (next.end_line + 1 - current.start_line)).map
              (fun i => if next.start_line ≤ current.start_line + i ∧
                          current.start_line + i ≤ next.end_line
                        then next.snippet_lines.getD
                          (current.start_line + i - next.start_line) []
                        else current.snippet_lines.getD i []),
            current.start_line, next.end_line⟩ := by
  have hmap := mapMOption_eq_some_map
    (fun i => SnippetInformation.merged_line_at current next (current.start_line + i))
    (fun i => if next.start_line ≤ current.start_line + i ∧
                current.start_line + i ≤ next.end_line
              then next.snippet_lines.getD (current.start_line + i - next.start_line) []
              else current.snippet_lines.getD i [])
    (List.range (next.end_line + 1 - current.start_line))
    (fun i hi => merged_line_at_eq current next hwfc hwfn hsort hov i
      (List.mem_range.mp hi))
  show (mapMOption
      (fun i => SnippetInformation.merged_line_at current next (current.start_line + i))
      (List.range (next.end_line + 1 - current.start_line))).map
        (fun new_content =>
          (⟨new_content, current.start_line, next.end_line⟩ : SnippetInformation)) = _
  rw [hmap]
  rfl

/-- Counterexample to claim C4 as stated: a merge does not always span
the union of the two snippets' line ranges.  When the second snippet is
nested inside the running one, the merged snippet ends at the *second*
snippet's end line (here 2), not at the union's end line
(`max 3 2 = 3`), and the running snippet's content past that line
(`"c"` at line 3) is dropped. -/
theorem claim_C4_counterexample :
    SnippetInformation.coelace_snippets
        [⟨[['a'], ['b'], ['c']], 1, 3⟩, ⟨[['B']], 2, 2⟩] =
      some [⟨[['a'], ['B']], 1, 2⟩] ∧
    ¬ ((2 : Nat) = max 3 2) := by
  constructor
  · decide
  · decide

/-- Claim C4 (amended): `coelace_snippets` sorts by start line and
merges the running snippet with the next exactly when the running
snippet's end line is at least the next's start line; each merge spans
from the *running snippet's start line* to the *second snippet's end
line* (the union of the two line ranges whenever the second snippet
ends no earlier than the running one), keyed by absolute line number
with the second snippet's content winning on a shared line number. -/
theorem claim_C4_coelace_amended :
    (∀ (current next : SnippetInformation) (rest : List SnippetInformation),
      ¬ next.start_line ≤ current.end_line →
      SnippetInformation.coelace_go current (next :: rest) =
        (SnippetInformation.coelace_go next rest).map (fun out => current :: out)) ∧
    (∀ (current next : SnippetInformation) (rest : List SnippetInformation),
      current.snippet_lines.length = current.end_line + 1 - current.start_line →
      next.snippet_lines.length = next.end_line + 1 - next.start_line →
      current.start_line ≤ next.start_line →
      next.start_line ≤ current.end_line →
      ∃ merged,
        SnippetInformation.merge_snippets current next = some merged ∧
        SnippetInformation.coelace_go current (next :: rest) =
          SnippetInformation.coelace_go merged rest ∧
        merged.start_line = current.start_line ∧
        merged.end_line = next.end_line ∧
        merged.snippet_lines.length = next.end_line + 1 - current.start_line ∧
        (∀ i, i < merged.snippet_lines.length →
          merged.snippet_lines.get? i =
            if next.start_line ≤ current.start_line + i ∧
                current.start_line + i ≤ next.end_line
            then next.snippet_lines.get? (current.start_line + i - next.start_line)
            else current.snippet_lines.get? i)) := by
  constructor
  · intro current next rest hno
    rw [coelace_go_cons, if_neg hno]
  · intro current next rest hwfc hwfn hsort hov
    have hspec := merge_snippets_spec current next hwfc hwfn hsort hov
    refine ⟨_, hspec, ?_, rfl, rfl, ?_, ?_⟩
    · rw [coelace_go_cons, if_pos hov, hspec]
    · simp
    · intro i hi
      simp only [List.length_map, List.length_range] at hi
      show ((List.range (next.end_line + 1 - current.start_line)).map
          (fun i => if next.start_line ≤ current.start_line + i ∧
                      current.start_line + i ≤ next.end_line
                    then next.snippet_lines.getD
                      (current.start_line + i - next.start_line) []
                    else current.snippet_lines.getD i [])).get? i = _
      rw [List.get?_map, List.get?_range hi]
      show some (if next.start_line ≤ current.start_line + i ∧
                    current.start_line + i ≤ next.end_line
                 then next.snippet_lines.getD
                    (current.start_line + i - next.start_line) []
                 else current.snippet_lines.getD i []) = _
      by_cases hcase : next.start_line ≤ current.start_line + i ∧
          current.start_line + i ≤ next.end_line
      · have hidx : current.start_line + i - next.start_line <
            next.snippet_lines.length := by omega
        rw [if_pos hcase, if_pos hcase, get?_eq_some_getD _ _ [] hidx]
      · have hile : current.start_line + i ≤ next.end_line := by omega
        have hlt : current.start_line + i < next.start_line := by
          rcases Nat.lt_or_ge (current.start_line + i) next.start_line with h | h
          · exact h
          · exact absurd ⟨h, hile⟩ hcase
        have hidx : i < current.snippet_lines.length := by omega
        rw [if_neg hcase, if_neg hcase, get?_eq_some_getD _ _ [] hidx]

/-- Witness for claim C4 (amended): merging overlapping snippets
`[a, b]@1-2` and `[X, Y]@2-3` spans lines 1–3 with the second
snippet's content winning on line 2. -/
theorem claim_C4_coelace_amended_witness :
    ∃ merged,
      SnippetInformation.merge_snippets ⟨[['a'], ['b']], 1, 2⟩ ⟨[['X'], ['Y']], 2, 3⟩ =
        some merged ∧
      SnippetInformation.coelace_go ⟨[['a'], ['b']], 1, 2⟩
          [(⟨[['X'], ['Y']], 2, 3⟩ : SnippetInformation)] =
        SnippetInformation.coelace_go merged [] ∧
      merged.start_line = 1 ∧ merged.end_line = 3 ∧
      merged.snippet_lines.length = 3 ∧
      (∀ i, i < merged.snippet_lines.length →
        merged.snippet_lines.get? i =
          if 2 ≤ 1 + i ∧ 1 + i ≤ 3
          then [['X'], ['Y']].get? (1 + i - 2)
          else [['a'], ['b']].get? i) :=
  claim_C4_coelace_amended.2 ⟨[['a'], ['b']], 1, 2⟩ ⟨[['X'], ['Y']], 2, 3⟩ []
    (by decide) (by decide) (by decide) (by decide)

theorem applyDocumentationEntry_node_information_none
    (fb : FunctionInformation) (e : Range × Str)
    (h : fb.node_information = none) :
    (FunctionInformation.applyDocumentationEntry fb e).node_information = none := by
  unfold FunctionInformation.applyDocumentationEntry FunctionInformation.set_documentation
  by_cases hcond : fb.range.start_line ≠ 0 ∧ e.1.end_line = fb.range.start_line - 1
  · rw [if_pos hcond]
    simp [h]
  · rw [if_neg hcond]
    exact h

theorem foldl_applyDocumentationEntry_node_information_none
    (entries : List (Range × Str)) (fb : FunctionInformation)
    (h : fb.node_information = none) :
    (entries.foldl FunctionInformation.applyDocumentationEntry fb).node_information = none := by
  induction entries generalizing fb with
  | nil => exact h
  | cons e rest ih =>
    exact ih _ (applyDocumentationEntry_node_information_none fb e h)

/-- Claim C10: in `add_documentation_to_functions`, a block that
carries no `node_information` never gains documentation
(`set_documentation` is a no-op on it), yet when a concatenated
documentation entry ends exactly one line above the block's start line
(and the block does not start at line 0) the block's range start is
still moved to that entry's start position. -/
theorem claim_C10_documentation_discarded :
    (∀ (function_blocks : List FunctionInformation)
        (documentation_entries : List (Range × Str)),
      (∀ fb ∈ function_blocks, fb.node_information = none) →
      ∀ fb' ∈ FunctionInformation.add_documentation_to_functions function_blocks
          documentation_entries,
        fb'.node_information = none) ∧
    (∀ (fb : FunctionInformation) (e : Range × Str),
      fb.node_information = none →
      fb.range.start_line ≠ 0 →
      e.1.end_line = fb.range.start_line - 1 →
      FunctionInformation.add_documentation_to_functions [fb] [e] =
        [⟨⟨e.1.start_position, fb.range.end_position⟩, fb.node_type, none⟩]) := by
  constructor
  · intro function_blocks documentation_entries hall fb' hmem
    unfold FunctionInformation.add_documentation_to_functions at hmem
    rcases List.mem_map.mp hmem with ⟨fb, hfb, heq⟩
    have hfb' : fb ∈ function_blocks :=
      (List.mem_insertionSort _).mp hfb
    rw [← heq]
    exact foldl_applyDocumentationEntry_node_information_none _ fb (hall fb hfb')
  · intro fb e hnone h0 hline
    obtain ⟨rng, nt, ni⟩ := fb
    simp only [FunctionInformation.node_information] at hnone
    subst hnone
    unfold FunctionInformation.add_documentation_to_functions
    have hsort : List.insertionSort (keyLe (fun fb => fb.range))
        [(⟨rng, nt, none⟩ : FunctionInformation)] =
        [(⟨rng, nt, none⟩ : FunctionInformation)] := rfl
    have hconcat : concat_documentation_string [e] = [e] := by
      unfold concat_documentation_string
      rfl
    rw [hsort, hconcat]
    simp only [List.map_cons, List.map_nil, List.foldl_cons, List.foldl_nil]
    unfold FunctionInformation.applyDocumentationEntry
    rw [if_pos (And.intro h0 hline)]
    rfl

/-- Witness for claim C10: a concrete block at line 3 with no node
information and a comment ending at line 2 — the block's range start
moves to the comment's start, but no documentation is recorded. -/
theorem claim_C10_documentation_discarded_witness :
    FunctionInformation.add_documentation_to_functions
        [⟨⟨⟨3, 0, 30⟩, ⟨5, 0, 50⟩⟩, FunctionNodeType.Function, none⟩]
        [(⟨⟨2, 0, 20⟩, ⟨2, 8, 28⟩⟩, 'd' :: 'o' :: 'c' :: [])] =
      [⟨⟨⟨2, 0, 20⟩, ⟨5, 0, 50⟩⟩, FunctionNodeType.Function, none⟩] :=
  claim_C10_documentation_discarded.2
    ⟨⟨⟨3, 0, 30⟩, ⟨5, 0, 50⟩⟩, FunctionNodeType.Function, none⟩
    (⟨⟨2, 0, 20⟩, ⟨2, 8, 28⟩⟩, 'd' :: 'o' :: 'c' :: [])
    rfl (by decide) (by decide)

/-- Claim C1 (the code, at the failing input): after an edit to a
document whose filtered line content is non-empty, the snippet cache is
*empty* — `generate_snippets` computes the filtered lines but its call
to `snippets_using_sliding_window` is commented out in the source
(`TODO(skcd): Bring this back`), while regenerating from the post-edit
filtered content would produce a non-empty window-snippet sequence. -/
theorem claim_C1_snippet_cache_not_regenerated :
    ((DocumentEditLines.new
        ('h' :: 'e' :: 'l' :: 'l' :: 'o' :: [])).content_change
        ⟨⟨0, 0, 0⟩, ⟨0, 0, 0⟩⟩ ('f' :: 'n' :: [])).window_snippets = [] ∧
    ((DocumentEditLines.new
        ('h' :: 'e' :: 'l' :: 'l' :: 'o' :: [])).content_change
        ⟨⟨0, 0, 0⟩, ⟨0, 0, 0⟩⟩ ('f' :: 'n' :: [])).filtered_lines ≠ [] ∧
    (DocumentEditLines.snippets_using_sliding_window
        (((DocumentEditLines.new
            ('h' :: 'e' :: 'l' :: 'l' :: 'o' :: [])).content_change
            ⟨⟨0, 0, 0⟩, ⟨0, 0, 0⟩⟩ ('f' :: 'n' :: [])).filtered_lines)).length = 1 := by
  refine ⟨?_, ?_, ?_⟩
  · decide
  · decide
  · decide

/-- Witness for claim C2 at a concrete buffer and query. -/
theorem claim_C2_retrieval_cap_witness :
    ((DocumentEditLines.new ('a' :: 'b' :: [])).grab_similar_context
        ('a' :: 'b' :: [])).length ≤ 10 :=
  (claim_C2_retrieval_cap (DocumentEditLines.new ('a' :: 'b' :: []))
    ('a' :: 'b' :: [])).1

/-- Witness for claim C6: two equal non-empty token sets score exactly
1. -/
theorem claim_C6_jaccard_score_witness :
    (BagOfWords.new [('h' :: 'i' :: ' ' :: 'y' :: 'o' :: [])] 1 1).jaccard_score
        (BagOfWords.new [('h' :: 'i' :: ' ' :: 'y' :: 'o' :: [])] 1 1) = 1 :=
  (claim_C6_jaccard_score
      (BagOfWords.new [('h' :: 'i' :: ' ' :: 'y' :: 'o' :: [])] 1 1)
      (BagOfWords.new [('h' :: 'i' :: ' ' :: 'y' :: 'o' :: [])] 1 1)).2.2.2.1.mpr
    ⟨rfl, by decide⟩
